import Mathlib

/-!
Verification of `generate_games_js.py`: a pipeline that fetches per-user
owned-game id lists from a remote XML API (with bounded 202-retry), resolves
canonical names in batches, merges ownership, filters unresolved ids, sorts,
and serializes a `games.js` snapshot.

External libraries are modelled as oracles: the HTTP layer (`requests`) is a
transport function from request index to response; XML documents
(`xml.etree.ElementTree`) are given as already-parsed element lists; the
regex match iterator over `users.js` is given as the list of matched key
groups.  Everything the Python source computes itself is embedded directly.
-/

/-! ## Python string primitives -/

/-- Model of `str.isdigit` restricted to ASCII text: the character is a
decimal digit.  (Python also accepts some non-ASCII digit characters; the
source only ever meets ASCII ids.) -/
def isAsciiDigit (c : Char) : Bool := '0' ≤ c && c ≤ '9'

/-- Model of `oid.isdigit()`: nonempty and all characters decimal digits. -/
def strIsDigit (s : String) : Bool := !s.data.isEmpty && s.data.all isAsciiDigit

/-- Model of `int(oid)` on a digit string, as a Python unbounded integer. -/
def digitsToInt (s : String) : ℤ :=
  (s.data.foldl (fun acc c => 10 * acc + (c.toNat - '0'.toNat)) 0 : ℕ)

/-- Strict lexicographic comparison of character lists by code point: the
model of Python string `<`. -/
def charListLt : List Char → List Char → Bool
  | [], [] => false
  | [], _ :: _ => true
  | _ :: _, [] => false
  | a :: as, b :: bs =>
    if a.toNat < b.toNat then true
    else if b.toNat < a.toNat then false
    else charListLt as bs

/-- Non-strict string order used by `sorted` on strings. -/
def pyStrLe (a b : String) : Bool := charListLt a.data b.data || a == b

/-- Model of `str.casefold` (ASCII case folding; the full Unicode folding
differs only on characters the claims do not involve). -/
def casefold (s : String) : String := ⟨s.data.map Char.toLower⟩

/-! ## Shared transport retry policy: `http_get_xml_text` -/

structure HttpResponse where
  status : Nat
  body : String

inductive HttpOutcome where
  | ok (body : String)
  | httpError (status : Nat)
  | exhausted (msg : String)
deriving DecidableEq

/-- Rendering of the Python `Optional[int]` `last_status` inside the
f-string of the `TimeoutError` message. -/
def showLastStatus : Option Nat → String
  | none => "None"
  | some s => toString s

/-- The `TimeoutError` message
`f"{url} kept returning {last_status} after {max_attempts} attempts."`. -/
def exhaustMsg (url : String) (status : String) (attempts : Nat) : String :=
  url ++ " kept returning " ++ status ++ " after " ++ toString attempts ++ " attempts."

/-- The retry loop of `http_get_xml_text`.  `transport i` is the response to
the `i`-th request (0-based); `remaining` counts loop iterations left,
`used` requests already issued, `last` the last observed status.  A 202
response sleeps (time is irrelevant to the embedding) and retries; any
other status in 400..599 makes `raise_for_status` raise; otherwise the body
is returned.  Returns the outcome together with the number of requests
issued. -/
def httpLoop (transport : Nat → HttpResponse) (url : String) (maxAttempts : Nat) :
    Nat → Nat → Option Nat → HttpOutcome × Nat
  | 0, used, last =>
    (.exhausted (exhaustMsg url (showLastStatus last) maxAttempts), used)
  | remaining + 1, used, _ =>
    let resp := transport used
    if resp.status = 202 then
      httpLoop transport url maxAttempts remaining (used + 1) (some resp.status)
    else if 400 ≤ resp.status ∧ resp.status ≤ 599 then
      (.httpError resp.status, used + 1)
    else
      (.ok resp.body, used + 1)

/-- Model of `http_get_xml_text` (auth headers and params folded into the
transport oracle). -/
def http_get_xml_text (transport : Nat → HttpResponse) (url : String)
    (maxAttempts : Nat) : HttpOutcome × Nat :=
  httpLoop transport url maxAttempts maxAttempts 0 none

/-! ## `chunked` -/

/-- Model of `chunked`: successive slices `xs[i : i + n]` for
`i = 0, n, 2n, ...`.  (For `n = 0` the Python generator raises on first use;
the claims only concern `n > 0`.) -/
def chunked {α : Type} : List α → Nat → List (List α)
  | _, 0 => []
  | [], _ + 1 => []
  | x :: xs, n + 1 =>
    (x :: xs).take (n + 1) :: chunked ((x :: xs).drop (n + 1)) (n + 1)
termination_by xs _ => xs.length
decreasing_by
  simp only [List.length_drop, List.length_cons]
  omega

/-! ## First-seen deduplication (used twice in the source) -/

/-- The `seen`-set loop the source uses to de-duplicate preserving order:
`seen` models the growing `set()`, `out` the growing output list. -/
def dedupAux {α : Type} [DecidableEq α] (seen : List α) (out : List α) :
    List α → List α
  | [] => out
  | x :: xs =>
    if x ∈ seen then dedupAux seen out xs
    else dedupAux (x :: seen) (out ++ [x]) xs

def dedupFirst {α : Type} [DecidableEq α] (xs : List α) : List α :=
  dedupAux [] [] xs

/-- Specification-side de-duplication: keep the first occurrence of each
element, in order of first occurrence. -/
def firstOccur {α : Type} [DecidableEq α] : List α → List α
  | [] => []
  | x :: xs => x :: firstOccur (xs.filter (fun y => y ≠ x))
termination_by xs => xs.length
decreasing_by
  exact Nat.lt_succ_of_le (List.length_filter_le _ _)

/-! ## `parse_bgg_usernames_from_users_js` -/

/-- Model of `parse_bgg_usernames_from_users_js`.  The file read and the
`_USER_ENTRY_RE.finditer` matching (library `re`), with the
unicode-unescape applied, are abstracted as the list `keys` of matched and
unescaped key groups in match order; the function strips each key, drops
keys that are empty after stripping, and de-duplicates preserving first
occurrence. -/
def parse_bgg_usernames (keys : List String) : List String :=
  dedupFirst ((keys.map String.trim).filter (fun k => k ≠ ""))

/-! ## `fetch_owned_game_ids_for_user` -/

/-- One `<item>` element of the collection response: its `objectid`
attribute (`Element.get` returns `None` when absent). -/
structure CollectionItem where
  objectid : Option String

/-- The id a collection item contributes, if any: present, nonempty and all
digits (`if oid and oid.isdigit()`). -/
def collectionItemId (it : CollectionItem) : Option ℤ :=
  match it.objectid with
  | none => none
  | some oid => if oid ≠ "" ∧ strIsDigit oid then some (digitsToInt oid) else none

/-- Model of `fetch_owned_game_ids_for_user`: the HTTP fetch and XML parse
are abstracted as the list of `<item>` elements of the response. -/
def fetch_owned_game_ids (items : List CollectionItem) : List ℤ :=
  dedupFirst (items.filterMap collectionItemId)

/-! ## `fetch_primary_names` -/

/-- A `<name>` child element of a thing item: its `type` and `value`
attributes. -/
structure NameEl where
  type : Option String
  value : Option String

/-- One `<item>` element of a thing response: its `id` attribute and its
`<name>` children in document order. -/
structure ThingItem where
  id : Option String
  names : List NameEl

/-- The first `<name>` element flagged `type="primary"`, if any; its
`value` attribute. -/
def primaryName (it : ThingItem) : Option String :=
  match it.names.find? (fun n => n.type == some "primary") with
  | none => none
  | some n => n.value

/-- The name-resolution mapping, observed through `dict.get`. -/
abbrev NameDict : Type := ℤ → Option String

/-- Model of `out[gid] = primary`. -/
def dictInsert (d : NameDict) (k : ℤ) (v : String) : NameDict :=
  fun g => if g = k then some v else d g

/-- The per-item loop body of `fetch_primary_names`: skip items whose `id`
attribute is missing or not all digits; store the primary name if truthy. -/
def thingStep (acc : NameDict) (it : ThingItem) : NameDict :=
  match it.id with
  | none => acc
  | some oid =>
    if oid ≠ "" ∧ strIsDigit oid then
      match primaryName it with
      | none => acc
      | some nm => if nm = "" then acc else dictInsert acc (digitsToInt oid) nm
    else acc

/-- The per-batch item loop of `fetch_primary_names`. -/
def processThingItems (items : List ThingItem) (d : NameDict) : NameDict :=
  items.foldl thingStep d

/-- Model of `fetch_primary_names`: `lookup ch` is the list of `<item>`
elements of the thing response for the batch `ch` (HTTP and XML parse
abstracted).  Returns the mapping together with the number of lookup
requests issued (one per batch). -/
def fetch_primary_names (lookup : List ℤ → List ThingItem) (ids : List ℤ)
    (chunkSize : Nat) : NameDict × Nat :=
  (chunked ids chunkSize).foldl
    (fun acc ch => (processThingItems (lookup ch) acc.1, acc.2 + 1))
    (fun _ => none, 0)

/-- Right-biased union of name mappings (later batches override earlier
ones, matching repeated `dict` assignment). -/
def dictUnion (a b : NameDict) : NameDict :=
  fun g => match b g with
    | some v => some v
    | none => a g

/-! ## Aggregator (`game_to_owners` in `main`) -/

/-- `game_to_owners`: association list from game id to its owner set; the
owner set is modelled as its insertion-ordered duplicate-free list (only
membership and `sorted(...)` are ever observed on it). -/
abbrev OwnershipMap : Type := List (ℤ × List String)

/-- Model of `game_to_owners.setdefault(gid, set()).add(username)`:
update the entry for `gid` (insertion at the end when absent, matching dict
insertion order); adding to the set is append-if-absent. -/
def addOwner : OwnershipMap → ℤ → String → OwnershipMap
  | [], gid, u => [(gid, [u])]
  | (g, os) :: rest, gid, u =>
    if g = gid then (g, if u ∈ os then os else os ++ [u]) :: rest
    else (g, os) :: addOwner rest gid u

/-- The per-identity merge: `for gid in ids: ... .add(username)`. -/
def mergeUser (m : OwnershipMap) (u : String) (ids : List ℤ) : OwnershipMap :=
  ids.foldl (fun acc gid => addOwner acc gid u) m

/-- The aggregation loop of `main` over all identities. -/
def buildMap (fetch : String → List ℤ) (users : List String) : OwnershipMap :=
  users.foldl (fun m u => mergeUser m u (fetch u)) []

/-- `game_to_owners[gid]` as observed through lookup (first entry wins). -/
def lookupGame : OwnershipMap → ℤ → Option (List String)
  | [], _ => none
  | (g, os) :: rest, gid => if g = gid then some os else lookupGame rest gid

def ownersOf (m : OwnershipMap) (gid : ℤ) : List String :=
  (lookupGame m gid).getD []

/-! ## Final assembly in `main` -/

structure GameRecord where
  id : ℤ
  name : String
  owners : List String
deriving DecidableEq

/-- The sort key comparison `(name.casefold(), id)` of `games_out.sort`. -/
def gameLe (a b : GameRecord) : Bool :=
  if casefold a.name = casefold b.name then a.id ≤ b.id
  else charListLt (casefold a.name).data (casefold b.name).data

/-- The loop body of the final assembly in `main`: look the id up in the
name mapping, drop it when the name is missing or empty
(`if not name: continue`), otherwise build the record with sorted owners. -/
def recordFor (m : OwnershipMap) (idToName : ℤ → Option String) (gid : ℤ) :
    Option GameRecord :=
  match idToName gid with
  | none => none
  | some nm =>
    if nm = "" then none
    else some ⟨gid, nm, List.mergeSort (ownersOf m gid) pyStrLe⟩

/-- The record-building and sorting tail of `main`, parameterised by the
per-identity fetched id lists and by the name-resolution mapping returned
by `fetch_primary_names`: collect `all_ids = sorted(game_to_owners)`, drop
ids whose name is missing or empty, sort owners, and sort records by
`(name.casefold(), id)`. -/
def mainRecords (users : List String) (fetch : String → List ℤ)
    (idToName : ℤ → Option String) : List GameRecord :=
  let m := buildMap fetch users
  let allIds := List.mergeSort (m.map (fun e => e.1)) (fun a b => a ≤ b)
  List.mergeSort (allIds.filterMap (recordFor m idToName)) gameLe

/-! ## Serializer: `js_escape` and `write_games_js` -/

/-- `str.replace` specialised to a single-character pattern, on character
lists. -/
def replaceChar (c : Char) (r : List Char) : List Char → List Char
  | [] => []
  | x :: xs => if x = c then r ++ replaceChar c r xs else x :: replaceChar c r xs

/-- The five sequential `str.replace` calls of `js_escape`, backslash
first, on character lists. -/
def escapeChars (l : List Char) : List Char :=
  replaceChar '\t' ['\\', 't']
    (replaceChar '\r' ['\\', 'r']
      (replaceChar '\n' ['\\', 'n']
        (replaceChar '"' ['\\', '"']
          (replaceChar '\\' ['\\', '\\'] l))))

/-- Model of `js_escape`. -/
def js_escape (s : String) : String := ⟨escapeChars s.data⟩

/-- Specification-side escaping: the intended per-character escape map. -/
def escCharSpec (c : Char) : List Char :=
  if c = '\\' then ['\\', '\\']
  else if c = '"' then ['\\', '"']
  else if c = '\n' then ['\\', 'n']
  else if c = '\r' then ['\\', 'r']
  else if c = '\t' then ['\\', 't']
  else [c]

/-- A JS-string-literal unescaper: decodes the escape sequences `js_escape`
produces ("safe to parse by the consuming format"). -/
def decodeEsc (c : Char) : Char :=
  if c = 'n' then '\n' else if c = 'r' then '\r' else if c = 't' then '\t' else c

def unescapeChars : List Char → List Char
  | [] => []
  | [c] => [c]
  | c1 :: c2 :: rest =>
    if c1 = '\\' then decodeEsc c2 :: unescapeChars rest
    else c1 :: unescapeChars (c2 :: rest)

/-- The `owners: [...]` fragment of one record line. -/
def gameOwnersJs (owners : List String) : String :=
  String.intercalate ", " (owners.map (fun u => "\"" ++ js_escape u ++ "\""))

/-- One record line of `write_games_js`. -/
def gameLine (g : GameRecord) : String :=
  "  \x7b id: " ++ toString g.id ++ ", name: \"" ++ js_escape g.name ++
    "\", owners: [" ++ gameOwnersJs g.owners ++ "] \x7d,"

/-- Model of `write_games_js`: the list of output lines, with the
generation date supplied as `dateStr` (the only non-deterministic input). -/
def write_games_lines (games : List GameRecord) (dateStr : String) : List String :=
  ["// AUTO-GENERATED. DO NOT EDIT.",
   "// Generated by generate_games_js.py",
   "// generated_at: " ++ dateStr,
   "",
   "window.GAMES = ["]
  ++ games.map gameLine
  ++ ["];", ""]

/-- The file text written by `write_games_js`. -/
def write_games_js (games : List GameRecord) (dateStr : String) : String :=
  String.intercalate "\n" (write_games_lines games dateStr)

/-! ## Order lemmas for `charListLt` -/

theorem charToNat_inj {a b : Char} (h : a.toNat = b.toNat) : a = b := by
  apply Char.ext
  unfold Char.toNat at h
  exact UInt32.toNat.inj h

theorem charListLt_conn :
    ∀ {a b : List Char}, charListLt a b = false → charListLt b a = false → a = b := by
  intro a
  induction a with
  | nil => intro b h1 h2; cases b with
    | nil => rfl
    | cons y ys => simp [charListLt] at h1
  | cons x xs ih =>
    intro b h1 h2
    cases b with
    | nil => simp [charListLt] at h2
    | cons y ys =>
      simp only [charListLt] at h1 h2
      by_cases hxy : x.toNat < y.toNat
      · simp [hxy] at h1
      · by_cases hyx : y.toNat < x.toNat
        · simp [hxy, hyx] at h2
        · simp only [hxy, hyx, if_neg, if_false] at h1 h2
          have hx : x = y := charToNat_inj (by omega)
          have : xs = ys := ih (by simpa using h1) (by simpa using h2)
          rw [hx, this]

theorem charListLt_asymm :
    ∀ {a b : List Char}, charListLt a b = true → charListLt b a = false := by
  intro a
  induction a with
  | nil => intro b h; cases b with
    | nil => simp [charListLt] at h
    | cons y ys => simp [charListLt]
  | cons x xs ih =>
    intro b h
    cases b with
    | nil => simp [charListLt] at h
    | cons y ys =>
      simp only [charListLt] at h ⊢
      by_cases hxy : x.toNat < y.toNat
      · simp [hxy]
        omega
      · by_cases hyx : y.toNat < x.toNat
        · simp [hxy, hyx] at h
        · simp only [hxy, hyx, if_neg, if_false] at h ⊢
          exact ih (by simpa using h)

theorem charListLt_trans :
    ∀ {a b c : List Char}, charListLt a b = true → charListLt b c = true →
      charListLt a c = true := by
  intro a
  induction a with
  | nil =>
    intro b c h1 h2
    cases b with
    | nil => simp [charListLt] at h1
    | cons y ys =>
      cases c with
      | nil => simp [charListLt] at h2
      | cons z zs => simp [charListLt]
  | cons x xs ih =>
    intro b c h1 h2
    cases b with
    | nil => simp [charListLt] at h1
    | cons y ys =>
      cases c with
      | nil => simp [charListLt] at h2
      | cons z zs =>
        simp only [charListLt] at h1 h2 ⊢
        by_cases hxy : x.toNat < y.toNat
        · by_cases hyz : y.toNat < z.toNat
          · simp [show x.toNat < z.toNat by omega]
          · by_cases hzy : z.toNat < y.toNat
            · simp [hyz, hzy] at h2
            · have : y.toNat = z.toNat := by omega
              simp [show x.toNat < z.toNat by omega]
        · by_cases hyx : y.toNat < x.toNat
          · simp [hxy, hyx] at h1
          · have hxy' : x.toNat = y.toNat := by omega
            by_cases hyz : y.toNat < z.toNat
            · simp [show x.toNat < z.toNat by omega]
            · by_cases hzy : z.toNat < y.toNat
              · simp [hyz, hzy] at h2
              · have hyz' : y.toNat = z.toNat := by omega
                have hxz1 : ¬ x.toNat < z.toNat := by omega
                have hxz2 : ¬ z.toNat < x.toNat := by omega
                simp only [hxz1, hyz, hzy, hxy, hyx, if_neg, if_false] at h1 h2 ⊢
                simp only [hxz2, if_neg, if_false]
                exact ih (by simpa using h1) (by simpa using h2)

theorem charListLt_irrefl : ∀ {a : List Char}, charListLt a a = false := by
  intro a
  induction a with
  | nil => rfl
  | cons x xs ih => simp [charListLt, ih]

/-! ## The retry loop: lemmas for `http_get_xml_text` -/
theorem httpLoop_exhaust (t : Nat → HttpResponse) (url : String) (M : Nat) :
    ∀ (n used : Nat), (∀ i, i < used + n → (t i).status = 202) →
      httpLoop t url M n used (some 202) =
        (.exhausted (exhaustMsg url "202" M), used + n) := by
  intro n
  induction n with
  | zero =>
    intro used _
    rfl
  | succ n ih =>
    intro used h
    have h0 : (t used).status = 202 := h used (by omega)
    simp only [httpLoop, h0, if_pos]
    have hrec := ih (used + 1) (fun i hi => h i (by omega))
    rw [hrec]
    congr 1
    omega

theorem httpLoop_terminal (t : Nat → HttpResponse) (url : String) (M : Nat) :
    ∀ (k remaining used : Nat) (last : Option Nat), k < remaining →
      (∀ i, i < k → (t (used + i)).status = 202) →
      (t (used + k)).status ≠ 202 →
      httpLoop t url M remaining used last =
        (if 400 ≤ (t (used + k)).status ∧ (t (used + k)).status ≤ 599
         then (.httpError (t (used + k)).status, used + k + 1)
         else (.ok (t (used + k)).body, used + k + 1)) := by
  intro k
  induction k with
  | zero =>
    intro remaining used last hlt _ hne
    cases remaining with
    | zero => omega
    | succ r =>
      simp only [Nat.add_zero] at hne ⊢
      simp only [httpLoop]
      rw [if_neg hne]
  | succ k ih =>
    intro remaining used last hlt h202 hne
    cases remaining with
    | zero => omega
    | succ r =>
      have h0 : (t used).status = 202 := by
        have := h202 0 (by omega)
        simpa using this
      simp only [httpLoop, h0, if_pos]
      have harg : ∀ i, i < k → (t (used + 1 + i)).status = 202 := by
        intro i hi
        have := h202 (i + 1) (by omega)
        have heq : used + (i + 1) = used + 1 + i := by omega
        rwa [heq] at this
      have hne' : (t (used + 1 + k)).status ≠ 202 := by
        have heq : used + (k + 1) = used + 1 + k := by omega
        rwa [heq] at hne
      have hrec := ih r (used + 1) (some 202) (by omega) harg hne'
      rw [hrec]
      have heq : used + 1 + k = used + (k + 1) := by omega
      rw [heq]

/-- C3: bounded retry.  A transport that answers 202 on every request makes
`http_get_xml_text` issue exactly `maxAttempts` requests and fail with the
exhaustion error naming the endpoint URL and the last observed status (202);
a transport that answers 202 exactly `k < maxAttempts` times and then a
success status makes it return that response's body after exactly `k + 1`
requests. -/
theorem bounded_retry_C3 (t : Nat → HttpResponse) (url : String)
    (maxAttempts k : Nat) :
    (0 < maxAttempts → (∀ i, i < maxAttempts → (t i).status = 202) →
      http_get_xml_text t url maxAttempts =
        (.exhausted (exhaustMsg url "202" maxAttempts), maxAttempts))
    ∧ (k < maxAttempts → (∀ i, i < k → (t i).status = 202) →
        (t k).status ≠ 202 → (t k).status < 400 →
        http_get_xml_text t url maxAttempts = (.ok ((t k).body), k + 1)) := by
  constructor
  · intro hpos hall
    cases maxAttempts with
    | zero => omega
    | succ m =>
      have h0 : (t 0).status = 202 := hall 0 (by omega)
      unfold http_get_xml_text
      simp only [httpLoop, h0, if_pos]
      have hrec := httpLoop_exhaust t url (m + 1) m 1 (fun i hi => hall i (by omega))
      rw [hrec]
      congr 1
      omega
  · intro hlt h202 hne hsucc
    unfold http_get_xml_text
    have hterm := httpLoop_terminal t url maxAttempts k maxAttempts 0 none hlt
      (by intro i hi; simpa using h202 i hi)
      (by simpa using hne)
    rw [hterm]
    simp only [Nat.zero_add]
    have hc : ¬ (400 ≤ (t k).status ∧ (t k).status ≤ 599) := by omega
    rw [if_neg hc]

/-- Witness for `bounded_retry_C3`: a transport that always answers 202
under `maxAttempts = 3`, and one that answers 202 twice then 200 with body
`"body"`. -/
theorem bounded_retry_C3_witness :
    http_get_xml_text (fun _ => ⟨202, ""⟩) "http://u" 3 =
      (.exhausted (exhaustMsg "http://u" "202" 3), 3)
    ∧ http_get_xml_text (fun i => if i < 2 then ⟨202, ""⟩ else ⟨200, "body"⟩)
        "http://u" 25 = (.ok "body", 3) := by
  constructor
  · exact (bounded_retry_C3 (fun _ => ⟨202, ""⟩) "http://u" 3 0).1
      (by decide) (fun i _ => rfl)
  · exact (bounded_retry_C3 (fun i => if i < 2 then ⟨202, ""⟩ else ⟨200, "body"⟩)
      "http://u" 25 2).2 (by decide) (fun i hi => by
        simp only [if_pos hi]) (by decide) (by decide)

/-- C8: in the shared transport routine only status 202 retries.  If the
first `k` responses are 202 and the `(k+1)`-th response has any other
status, the call terminates right after that response with `k + 1` requests
issued: a fatal `raise_for_status` error for a non-success HTTP status
(400–599), the response body for a success status. -/
theorem transport_policy_C8 (t : Nat → HttpResponse) (url : String)
    (maxAttempts k : Nat) (hk : k < maxAttempts)
    (h202 : ∀ i, i < k → (t i).status = 202) (hne : (t k).status ≠ 202) :
    (400 ≤ (t k).status → (t k).status ≤ 599 →
      http_get_xml_text t url maxAttempts = (.httpError ((t k).status), k + 1))
    ∧ ((t k).status < 400 →
      http_get_xml_text t url maxAttempts = (.ok ((t k).body), k + 1)) := by
  have hterm := httpLoop_terminal t url maxAttempts k maxAttempts 0 none hk
    (by intro i hi; simpa using h202 i hi)
    (by simpa using hne)
  constructor
  · intro h4 h5
    unfold http_get_xml_text
    rw [hterm]
    simp only [Nat.zero_add]
    rw [if_pos (And.intro h4 h5)]
  · intro hlt
    unfold http_get_xml_text
    rw [hterm]
    simp only [Nat.zero_add]
    have hc : ¬ (400 ≤ (t k).status ∧ (t k).status ≤ 599) := by omega
    rw [if_neg hc]

/-- Witness for `transport_policy_C8`: a transport answering 202 once then
404 (fatal after 2 requests), and one answering 202 once then 200 (body
returned after 2 requests). -/
theorem transport_policy_C8_witness :
    http_get_xml_text (fun i => if i < 1 then ⟨202, ""⟩ else ⟨404, "nf"⟩)
      "http://u" 25 = (.httpError 404, 2)
    ∧ http_get_xml_text (fun i => if i < 1 then ⟨202, ""⟩ else ⟨200, "ok"⟩)
        "http://u" 25 = (.ok "ok", 2) := by
  constructor
  · exact (transport_policy_C8 (fun i => if i < 1 then ⟨202, ""⟩ else ⟨404, "nf"⟩)
      "http://u" 25 1 (by decide) (fun i hi => by simp only [if_pos hi])
      (by decide)).1 (by decide) (by decide)
  · exact (transport_policy_C8 (fun i => if i < 1 then ⟨202, ""⟩ else ⟨200, "ok"⟩)
      "http://u" 25 1 (by decide) (fun i hi => by simp only [if_pos hi])
      (by decide)).2 (by decide)

/-! ## Lemmas for `chunked` and `fetch_primary_names` -/

theorem ceil_div_step (L B : Nat) (hL : 0 < L) (hB : 0 < B) :
    (L - B + B - 1) / B + 1 = (L + B - 1) / B := by
  rcases Nat.lt_or_ge L B with h | h
  · have h1 : L - B + B - 1 = B - 1 := by omega
    rw [h1, Nat.div_eq_of_lt (by omega)]
    have h3 : L + B - 1 = (L - 1) + B := by omega
    rw [h3, Nat.add_div_right _ hB, Nat.div_eq_of_lt (by omega)]
  · have h1 : L - B + B - 1 = L - 1 := by omega
    have h2 : L + B - 1 = (L - 1) + B := by omega
    rw [h1, h2, Nat.add_div_right _ hB]

theorem chunked_length_aux {α : Type} (b : Nat) :
    ∀ (n : Nat) (xs : List α), xs.length ≤ n →
      (chunked xs (b + 1)).length = (xs.length + (b + 1) - 1) / (b + 1) := by
  intro n
  induction n with
  | zero =>
    intro xs hlen
    have hnil : xs = [] := List.eq_nil_of_length_eq_zero (by omega)
    subst hnil
    simp [chunked]
    rw [Nat.div_eq_of_lt (by omega)]
  | succ n ih =>
    intro xs hlen
    cases xs with
    | nil =>
      simp [chunked]
      rw [Nat.div_eq_of_lt (by omega)]
    | cons x rest =>
      have hrec := ih ((x :: rest).drop (b + 1)) (by
        simp only [List.length_drop, List.length_cons]
        simp only [List.length_cons] at hlen
        omega)
      simp only [chunked, List.length_cons, hrec, List.length_drop]
      exact ceil_div_step (rest.length + 1) (b + 1) (by omega) (by omega)

theorem chunked_length {α : Type} (xs : List α) (B : Nat) (hB : 0 < B) :
    (chunked xs B).length = (xs.length + B - 1) / B := by
  cases B with
  | zero => omega
  | succ b => exact chunked_length_aux b xs.length xs (Nat.le_refl _)

theorem chunked_sizes_aux {α : Type} (b : Nat) :
    ∀ (n : Nat) (xs : List α), xs.length ≤ n →
      ∀ ch ∈ chunked xs (b + 1), ch.length ≤ b + 1 := by
  intro n
  induction n with
  | zero =>
    intro xs hlen ch hch
    have hnil : xs = [] := List.eq_nil_of_length_eq_zero (by omega)
    subst hnil
    simp [chunked] at hch
  | succ n ih =>
    intro xs hlen ch hch
    cases xs with
    | nil => simp [chunked] at hch
    | cons x rest =>
      simp only [chunked, List.mem_cons] at hch
      rcases hch with h | h
      · rw [h]; exact List.length_take_le _ _
      · exact ih ((x :: rest).drop (b + 1)) (by
          simp only [List.length_drop, List.length_cons]
          simp only [List.length_cons] at hlen
          omega) ch h

theorem chunked_sizes {α : Type} (xs : List α) (B : Nat) :
    ∀ ch ∈ chunked xs B, ch.length ≤ B := by
  cases B with
  | zero => intro ch hch; simp [chunked] at hch
  | succ b => exact chunked_sizes_aux b xs.length xs (Nat.le_refl _)

theorem chunked_flatten_aux {α : Type} (b : Nat) :
    ∀ (n : Nat) (xs : List α), xs.length ≤ n →
      (chunked xs (b + 1)).flatten = xs := by
  intro n
  induction n with
  | zero =>
    intro xs hlen
    have hnil : xs = [] := List.eq_nil_of_length_eq_zero (by omega)
    subst hnil
    simp [chunked]
  | succ n ih =>
    intro xs hlen
    cases xs with
    | nil => simp [chunked]
    | cons x rest =>
      have hrec := ih ((x :: rest).drop (b + 1)) (by
        simp only [List.length_drop, List.length_cons]
        simp only [List.length_cons] at hlen
        omega)
      simp only [chunked, List.flatten_cons, hrec]
      exact List.take_append_drop _ _

theorem chunked_flatten {α : Type} (xs : List α) (B : Nat) (hB : 0 < B) :
    (chunked xs B).flatten = xs := by
  cases B with
  | zero => omega
  | succ b => exact chunked_flatten_aux b xs.length xs (Nat.le_refl _)

theorem dictUnion_empty (d : NameDict) : dictUnion d (fun _ => none) = d := by
  funext g
  rfl

theorem dictUnion_assoc (a b c : NameDict) :
    dictUnion (dictUnion a b) c = dictUnion a (dictUnion b c) := by
  funext g
  cases hc : c g <;> cases hb : b g <;> simp [dictUnion, hb, hc]

theorem dictInsert_union (d e : NameDict) (k : ℤ) (v : String) :
    dictInsert (dictUnion d e) k v = dictUnion d (dictInsert e k v) := by
  funext g
  by_cases hg : g = k
  · simp [dictInsert, dictUnion, hg]
  · simp [dictInsert, dictUnion, hg]

theorem thingStep_union (d e : NameDict) (it : ThingItem) :
    thingStep (dictUnion d e) it = dictUnion d (thingStep e it) := by
  unfold thingStep
  cases hid : it.id with
  | none => rfl
  | some oid =>
    dsimp only
    by_cases hdig : oid ≠ "" ∧ strIsDigit oid
    · rw [if_pos hdig, if_pos hdig]
      cases hpn : primaryName it with
      | none => rfl
      | some nm =>
        dsimp only
        by_cases hnm : nm = ""
        · rw [if_pos hnm, if_pos hnm]
        · rw [if_neg hnm, if_neg hnm]
          exact dictInsert_union d e _ nm
    · rw [if_neg hdig, if_neg hdig]

theorem thingStep_decomp (d : NameDict) (it : ThingItem) :
    thingStep d it = dictUnion d (thingStep (fun _ => none) it) := by
  have h := thingStep_union d (fun _ => none) it
  rwa [dictUnion_empty] at h

theorem processThingItems_decomp :
    ∀ (items : List ThingItem) (d : NameDict),
      processThingItems items d =
        dictUnion d (processThingItems items (fun _ => none)) := by
  intro items
  induction items with
  | nil => intro d; exact (dictUnion_empty d).symm
  | cons it its ih =>
    intro d
    simp only [processThingItems, List.foldl_cons] at ih ⊢
    rw [ih (thingStep d it), ih (thingStep (fun _ => none) it),
      thingStep_decomp d it, dictUnion_assoc]

theorem fetch_names_foldl_fst (lookup : List ℤ → List ThingItem) :
    ∀ (chs : List (List ℤ)) (d : NameDict) (c : Nat),
      (chs.foldl (fun acc ch => (processThingItems (lookup ch) acc.1, acc.2 + 1))
        (d, c)).1
        = chs.foldl (fun acc ch => processThingItems (lookup ch) acc) d := by
  intro chs
  induction chs with
  | nil => intro d c; rfl
  | cons ch chs ih =>
    intro d c
    simp only [List.foldl_cons]
    exact ih _ _

theorem fetch_names_foldl_snd (lookup : List ℤ → List ThingItem) :
    ∀ (chs : List (List ℤ)) (d : NameDict) (c : Nat),
      (chs.foldl (fun acc ch => (processThingItems (lookup ch) acc.1, acc.2 + 1))
        (d, c)).2 = c + chs.length := by
  intro chs
  induction chs with
  | nil => intro d c; simp
  | cons ch chs ih =>
    intro d c
    simp only [List.foldl_cons, ih, List.length_cons]
    omega

theorem foldl_process_eq_union (lookup : List ℤ → List ThingItem) :
    ∀ (chs : List (List ℤ)) (d : NameDict),
      chs.foldl (fun acc ch => processThingItems (lookup ch) acc) d
        = chs.foldl
            (fun acc ch => dictUnion acc (processThingItems (lookup ch) (fun _ => none)))
            d := by
  intro chs
  induction chs with
  | nil => intro d; rfl
  | cons ch chs ih =>
    intro d
    simp only [List.foldl_cons]
    rw [processThingItems_decomp (lookup ch) d]
    exact ih _

/-- C5: batch partitioning.  For batch size `B > 0` the resolver splits the
`N` input ids into `⌈N/B⌉` batches of at most `B` ids whose concatenation
is the input list, issues one lookup request per batch, and its result
mapping is the (right-biased) union of the per-batch result mappings. -/
theorem batch_partition_C5 (lookup : List ℤ → List ThingItem) (ids : List ℤ)
    (B : Nat) (hB : 0 < B) :
    (chunked ids B).length = (ids.length + B - 1) / B
    ∧ (∀ ch ∈ chunked ids B, ch.length ≤ B)
    ∧ (chunked ids B).flatten = ids
    ∧ (fetch_primary_names lookup ids B).2 = (chunked ids B).length
    ∧ (fetch_primary_names lookup ids B).1 =
        (chunked ids B).foldl
          (fun acc ch => dictUnion acc (processThingItems (lookup ch) (fun _ => none)))
          (fun _ => none) := by
  refine ⟨chunked_length ids B hB, chunked_sizes ids B, chunked_flatten ids B hB, ?_, ?_⟩
  · unfold fetch_primary_names
    rw [fetch_names_foldl_snd]
    omega
  · unfold fetch_primary_names
    rw [fetch_names_foldl_fst]
    exact foldl_process_eq_union lookup (chunked ids B) _

/-- Witness for `batch_partition_C5`: three ids, batch size 2, empty
responses. -/
theorem batch_partition_C5_witness :
    (chunked ([1, 2, 3] : List ℤ) 2).length = (([1, 2, 3] : List ℤ).length + 2 - 1) / 2
    ∧ (∀ ch ∈ chunked ([1, 2, 3] : List ℤ) 2, ch.length ≤ 2)
    ∧ (chunked ([1, 2, 3] : List ℤ) 2).flatten = [1, 2, 3]
    ∧ (fetch_primary_names (fun _ => []) ([1, 2, 3] : List ℤ) 2).2 =
        (chunked ([1, 2, 3] : List ℤ) 2).length
    ∧ (fetch_primary_names (fun _ => []) ([1, 2, 3] : List ℤ) 2).1 =
        (chunked ([1, 2, 3] : List ℤ) 2).foldl
          (fun acc ch => dictUnion acc (processThingItems ((fun _ => ([] : List ThingItem)) ch) (fun _ => none)))
          (fun _ => none) :=
  batch_partition_C5 (fun _ => []) [1, 2, 3] 2 (by decide)

/-! ## First-seen deduplication: `dedupFirst` equals `firstOccur` -/

theorem filter_not_mem_cons {α : Type} [DecidableEq α] (x : α) (seen : List α)
    (l : List α) :
    l.filter (fun y => y ∉ x :: seen) =
      (l.filter (fun y => y ∉ seen)).filter (fun y => y ≠ x) := by
  rw [List.filter_filter]
  apply List.filter_congr
  intro a _
  by_cases hax : a = x
  · subst hax; simp
  · by_cases has : a ∈ seen <;> simp [hax, has]

theorem dedupAux_eq {α : Type} [DecidableEq α] :
    ∀ (xs seen out : List α),
      dedupAux seen out xs = out ++ firstOccur (xs.filter (fun y => y ∉ seen)) := by
  intro xs
  induction xs with
  | nil => intro seen out; simp [dedupAux, firstOccur]
  | cons x xs ih =>
    intro seen out
    by_cases hx : x ∈ seen
    · simp only [dedupAux, if_pos hx, ih]
      congr 2
      simp [List.filter_cons, hx]
    · simp only [dedupAux, if_neg hx, ih]
      have hpred : (decide (x ∉ seen)) = true := by simp [hx]
      rw [List.filter_cons]
      simp only [hpred, if_pos]
      rw [firstOccur, filter_not_mem_cons]
      simp

theorem dedupFirst_eq_firstOccur {α : Type} [DecidableEq α] (xs : List α) :
    dedupFirst xs = firstOccur xs := by
  unfold dedupFirst
  rw [dedupAux_eq]
  have hfil : xs.filter (fun y => y ∉ ([] : List α)) = xs := by
    apply List.filter_eq_self.mpr
    intro a _
    simp
  rw [hfil]
  simp

theorem firstOccur_aux {α : Type} [DecidableEq α] :
    ∀ (n : Nat) (xs : List α), xs.length ≤ n →
      (firstOccur xs).Sublist xs ∧ (firstOccur xs).Nodup ∧
        ∀ a, a ∈ firstOccur xs ↔ a ∈ xs := by
  intro n
  induction n with
  | zero =>
    intro xs hlen
    have hnil : xs = [] := List.eq_nil_of_length_eq_zero (by omega)
    subst hnil
    simp [firstOccur]
  | succ n ih =>
    intro xs hlen
    cases xs with
    | nil => simp [firstOccur]
    | cons x l =>
      have hfl : (l.filter (fun y => y ≠ x)).length ≤ n := by
        have := List.length_filter_le (fun y => decide (y ≠ x)) l
        simp only [List.length_cons] at hlen
        omega
      obtain ⟨hsub, hnodup, hmem⟩ := ih (l.filter (fun y => y ≠ x)) hfl
      rw [firstOccur]
      refine ⟨?_, ?_, ?_⟩
      · exact List.Sublist.cons₂ x (hsub.trans (List.filter_sublist _))
      · rw [List.nodup_cons]
        refine ⟨?_, hnodup⟩
        intro hxin
        have := (hmem x).mp hxin
        simp [List.mem_filter] at this
      · intro a
        by_cases hax : a = x
        · subst hax; simp
        · simp only [List.mem_cons, hmem a, List.mem_filter]
          simp [hax]

theorem firstOccur_sublist {α : Type} [DecidableEq α] (xs : List α) :
    (firstOccur xs).Sublist xs :=
  (firstOccur_aux xs.length xs (Nat.le_refl _)).1

theorem firstOccur_nodup {α : Type} [DecidableEq α] (xs : List α) :
    (firstOccur xs).Nodup :=
  (firstOccur_aux xs.length xs (Nat.le_refl _)).2.1

theorem mem_firstOccur {α : Type} [DecidableEq α] (a : α) (xs : List α) :
    a ∈ firstOccur xs ↔ a ∈ xs :=
  (firstOccur_aux xs.length xs (Nat.le_refl _)).2.2 a

/-- C7: the username extraction returns the matched keys stripped of
surrounding whitespace, with keys empty after stripping discarded and
duplicates removed keeping the first occurrence, in first-occurrence
order: it equals the first-occurrence deduplication of the stripped,
nonempty keys, is duplicate-free, is an order-preserving subsequence of
the stripped nonempty keys, and contains exactly the nonempty stripped
input keys. -/
theorem parse_usernames_C7 (keys : List String) :
    parse_bgg_usernames keys =
      firstOccur ((keys.map String.trim).filter (fun k => k ≠ ""))
    ∧ (parse_bgg_usernames keys).Nodup
    ∧ (parse_bgg_usernames keys).Sublist ((keys.map String.trim).filter (fun k => k ≠ ""))
    ∧ (∀ u, u ∈ parse_bgg_usernames keys ↔ (u ≠ "" ∧ ∃ k ∈ keys, k.trim = u)) := by
  have he : parse_bgg_usernames keys =
      firstOccur ((keys.map String.trim).filter (fun k => k ≠ "")) :=
    dedupFirst_eq_firstOccur _
  refine ⟨he, ?_, ?_, ?_⟩
  · rw [he]; exact firstOccur_nodup _
  · rw [he]; exact firstOccur_sublist _
  · intro u
    rw [he, mem_firstOccur, List.mem_filter]
    simp only [List.mem_map, decide_not]
    constructor
    · rintro ⟨⟨k, hk, hku⟩, hne⟩
      refine ⟨by simpa using hne, k, hk, hku⟩
    · rintro ⟨hne, k, hk, hku⟩
      exact ⟨⟨k, hk, hku⟩, by simpa using hne⟩

/-! ## C4: `fetch_owned_game_ids_for_user` -/

theorem strIsDigit_ne_empty {s : String} (h : strIsDigit s = true) : s ≠ "" := by
  intro he
  subst he
  simp [strIsDigit] at h

theorem collectionItemId_eq_some (it : CollectionItem) (i : ℤ) :
    collectionItemId it = some i ↔
      ∃ s, it.objectid = some s ∧ strIsDigit s = true ∧ digitsToInt s = i := by
  unfold collectionItemId
  cases ho : it.objectid with
  | none => simp
  | some s =>
    dsimp only
    by_cases hd : s ≠ "" ∧ strIsDigit s
    · rw [if_pos hd]
      constructor
      · intro hi
        injection hi with hi
        exact ⟨s, rfl, hd.2, hi⟩
      · rintro ⟨s', hs', _, hval⟩
        injection hs' with hs'
        subst hs'
        rw [hval]
    · rw [if_neg hd]
      constructor
      · intro hi; cases hi
      · rintro ⟨s', hs', hdig, _⟩
        injection hs' with hs'
        subst hs'
        exact absurd ⟨strIsDigit_ne_empty hdig, hdig⟩ hd

/-- C4 counterexample: the claim says every returned ItemId is a positive
integer, but the attribute value `"0"` passes `oid.isdigit()` and yields
the id `0`, which is not positive. -/
theorem collection_ids_C4_counterexample :
    fetch_owned_game_ids [⟨some "0"⟩] = [0]
    ∧ ¬ (∀ i ∈ fetch_owned_game_ids [⟨some "0"⟩], 0 < i) := by
  have h1 : fetch_owned_game_ids [⟨some "0"⟩] = [0] := by rfl
  refine ⟨h1, ?_⟩
  intro h
  have h2 := h 0 (by rw [h1]; simp)
  exact lt_irrefl 0 h2

/-- C4 (amended): `fetch_owned_game_ids_for_user` skips every item whose
`objectid` attribute is absent or not a digit string, so every ItemId it
returns is a **non-negative** integer; the returned sequence is
duplicate-free in first-seen order. -/
theorem collection_ids_C4_amended (items : List CollectionItem) :
    fetch_owned_game_ids items = firstOccur (items.filterMap collectionItemId)
    ∧ (fetch_owned_game_ids items).Nodup
    ∧ (∀ i, i ∈ fetch_owned_game_ids items ↔
        ∃ it ∈ items, ∃ s, it.objectid = some s ∧ strIsDigit s = true ∧
          digitsToInt s = i)
    ∧ (∀ i ∈ fetch_owned_game_ids items, 0 ≤ i) := by
  have he : fetch_owned_game_ids items =
      firstOccur (items.filterMap collectionItemId) :=
    dedupFirst_eq_firstOccur _
  have hmem : ∀ i, i ∈ fetch_owned_game_ids items ↔
      ∃ it ∈ items, ∃ s, it.objectid = some s ∧ strIsDigit s = true ∧
        digitsToInt s = i := by
    intro i
    rw [he, mem_firstOccur, List.mem_filterMap]
    constructor
    · rintro ⟨it, hit, hid⟩
      obtain ⟨s, hs, hdig, hval⟩ := (collectionItemId_eq_some it i).mp hid
      exact ⟨it, hit, s, hs, hdig, hval⟩
    · rintro ⟨it, hit, s, hs, hdig, hval⟩
      exact ⟨it, hit, (collectionItemId_eq_some it i).mpr ⟨s, hs, hdig, hval⟩⟩
  refine ⟨he, by rw [he]; exact firstOccur_nodup _, hmem, ?_⟩
  intro i hi
  obtain ⟨it, _, s, _, _, hval⟩ := (hmem i).mp hi
  rw [← hval]
  unfold digitsToInt
  exact Int.natCast_nonneg _

/-- Witness for `collection_ids_C4_amended`: a response with a valid id, a
missing id and a duplicate. -/
theorem collection_ids_C4_amended_witness :
    fetch_owned_game_ids [⟨some "10"⟩, ⟨none⟩, ⟨some "10"⟩] =
      firstOccur ([⟨some "10"⟩, ⟨none⟩, (⟨some "10"⟩ : CollectionItem)].filterMap collectionItemId)
    ∧ (0 : ℤ) ≤ 10 :=
  ⟨(collection_ids_C4_amended [⟨some "10"⟩, ⟨none⟩, ⟨some "10"⟩]).1,
   (collection_ids_C4_amended [⟨some "10"⟩, ⟨none⟩, ⟨some "10"⟩]).2.2.2 10 (by decide)⟩

/-! ## Serializer lemmas -/

theorem replaceChar_append (c : Char) (r : List Char) :
    ∀ (a b : List Char),
      replaceChar c r (a ++ b) = replaceChar c r a ++ replaceChar c r b := by
  intro a b
  induction a with
  | nil => simp [replaceChar]
  | cons x xs ih =>
    by_cases hx : x = c
    · simp [replaceChar, hx, ih, List.append_assoc]
    · simp [replaceChar, hx, ih]

theorem escapeChars_cons (x : Char) (xs : List Char) :
    escapeChars (x :: xs) = escCharSpec x ++ escapeChars xs := by
  unfold escapeChars escCharSpec
  by_cases h1 : x = '\\'
  · subst h1; simp [replaceChar, replaceChar_append]
  · by_cases h2 : x = '"'
    · subst h2; simp [replaceChar, replaceChar_append, h1]
    · by_cases h3 : x = '\n'
      · subst h3; simp [replaceChar, replaceChar_append, h1, h2]
      · by_cases h4 : x = '\r'
        · subst h4; simp [replaceChar, replaceChar_append, h1, h2, h3]
        · by_cases h5 : x = '\t'
          · subst h5; simp [replaceChar, replaceChar_append, h1, h2, h3, h4]
          · simp [replaceChar, h1, h2, h3, h4, h5]

theorem escapeChars_eq_flatMap : ∀ (l : List Char),
    escapeChars l = l.flatMap escCharSpec := by
  intro l
  induction l with
  | nil => rfl
  | cons x xs ih => rw [escapeChars_cons, List.flatMap_cons, ih]

theorem escCharSpec_ne_nil (c : Char) : escCharSpec c ≠ [] := by
  unfold escCharSpec
  split
  · simp
  · split
    · simp
    · split
      · simp
      · split
        · simp
        · split <;> simp

theorem flatMap_escCharSpec_eq_nil {l : List Char}
    (h : l.flatMap escCharSpec = []) : l = [] := by
  cases l with
  | nil => rfl
  | cons x xs =>
    rw [List.flatMap_cons] at h
    exact absurd (List.append_eq_nil.mp h).1 (escCharSpec_ne_nil x)

theorem unescape_escape : ∀ (l : List Char),
    unescapeChars (l.flatMap escCharSpec) = l := by
  intro l
  induction l with
  | nil => rfl
  | cons x xs ih =>
    rw [List.flatMap_cons]
    by_cases h1 : x = '\\'
    · subst h1
      have hs : escCharSpec '\\' = ['\\', '\\'] := by decide
      rw [hs]
      simp only [List.cons_append, List.nil_append]
      simp [unescapeChars, decodeEsc, ih]
    · by_cases h2 : x = '"'
      · subst h2
        have hs : escCharSpec '"' = ['\\', '"'] := by decide
        rw [hs]
        simp only [List.cons_append, List.nil_append]
        simp [unescapeChars, decodeEsc, ih]
      · by_cases h3 : x = '\n'
        · subst h3
          have hs : escCharSpec '\n' = ['\\', 'n'] := by decide
          rw [hs]
          simp only [List.cons_append, List.nil_append]
          simp [unescapeChars, decodeEsc, ih]
        · by_cases h4 : x = '\r'
          · subst h4
            have hs : escCharSpec '\r' = ['\\', 'r'] := by decide
            rw [hs]
            simp only [List.cons_append, List.nil_append]
            simp [unescapeChars, decodeEsc, ih]
          · by_cases h5 : x = '\t'
            · subst h5
              have hs : escCharSpec '\t' = ['\\', 't'] := by decide
              rw [hs]
              simp only [List.cons_append, List.nil_append]
              simp [unescapeChars, decodeEsc, ih]
            · have hx : escCharSpec x = [x] := by
                unfold escCharSpec
                rw [if_neg h1, if_neg h2, if_neg h3, if_neg h4, if_neg h5]
              rw [hx]
              cases ht : xs.flatMap escCharSpec with
              | nil =>
                have hxs : xs = [] := flatMap_escCharSpec_eq_nil ht
                subst hxs
                simp [unescapeChars]
              | cons y t =>
                rw [show ([x] ++ (y :: t)) = x :: y :: t from rfl]
                simp only [unescapeChars]
                rw [if_neg h1, ← ht, ih]

theorem write_lines_length (games : List GameRecord) (d1 d2 : String) :
    (write_games_lines games d1).length = (write_games_lines games d2).length := by
  simp [write_games_lines]

theorem write_lines_agree (games : List GameRecord) (d1 d2 : String) :
    ∀ i, i ≠ 2 →
      (write_games_lines games d1)[i]? = (write_games_lines games d2)[i]? := by
  intro i hi
  rcases i with _ | _ | _ | n
  · rfl
  · rfl
  · exact absurd rfl hi
  · rfl

/-- C9: the serializer is a deterministic function of the record list: for
the same records, outputs produced with two different generation dates have
the same number of lines and agree on every line except the timestamp line
(index 2); and `js_escape` escapes exactly the backslash, double-quote,
newline, carriage-return and tab characters of every rendered string (it
equals the per-character escape map, and unescaping recovers the original
string). -/
theorem serializer_C9 (games : List GameRecord) (d1 d2 : String) (s : String)
    (i : Nat) :
    (write_games_lines games d1).length = (write_games_lines games d2).length
    ∧ (i ≠ 2 → (write_games_lines games d1)[i]? = (write_games_lines games d2)[i]?)
    ∧ (js_escape s).data = s.data.flatMap escCharSpec
    ∧ unescapeChars (js_escape s).data = s.data := by
  refine ⟨write_lines_length games d1 d2,
    fun hi => write_lines_agree games d1 d2 i hi,
    escapeChars_eq_flatMap s.data, ?_⟩
  show unescapeChars (escapeChars s.data) = s.data
  rw [escapeChars_eq_flatMap s.data]
  exact unescape_escape s.data

/-- Witness for `serializer_C9`: empty record list, dates `"a"`/`"b"`,
string `"x"`, line index 0. -/
theorem serializer_C9_witness :
    (write_games_lines [] "a").length = (write_games_lines [] "b").length
    ∧ (write_games_lines [] "a")[0]? = (write_games_lines [] "b")[0]?
    ∧ (js_escape "x").data = "x".data.flatMap escCharSpec
    ∧ unescapeChars (js_escape "x").data = "x".data :=
  ⟨(serializer_C9 [] "a" "b" "x" 0).1,
   (serializer_C9 [] "a" "b" "x" 0).2.1 (by decide),
   (serializer_C9 [] "a" "b" "x" 0).2.2.1,
   (serializer_C9 [] "a" "b" "x" 0).2.2.2⟩

/-! ## Aggregator lemmas -/

theorem mem_ownersOf_addOwner :
    ∀ (m : OwnershipMap) (g : ℤ) (u : String) (g' : ℤ) (v : String),
      v ∈ ownersOf (addOwner m g u) g' ↔
        v ∈ ownersOf m g' ∨ (v = u ∧ g' = g) := by
  intro m
  induction m with
  | nil =>
    intro g u g' v
    by_cases hg : g = g'
    · subst hg
      simp [addOwner, ownersOf, lookupGame]
    · simp only [addOwner, ownersOf, lookupGame, if_neg hg]
      simp only [Option.getD_none, List.not_mem_nil, false_or]
      constructor
      · intro hv; cases hv
      · rintro ⟨-, hgg⟩
        exact absurd hgg.symm hg
  | cons e rest ih =>
    intro g u g' v
    obtain ⟨k, os⟩ := e
    by_cases hk : k = g
    · subst hk
      simp only [addOwner, if_pos rfl]
      by_cases hg' : k = g'
      · subst hg'
        simp only [ownersOf, lookupGame, if_pos rfl, Option.getD_some]
        by_cases hu : u ∈ os
        · rw [if_pos hu]
          constructor
          · intro hv; exact Or.inl hv
          · rintro (hv | ⟨hv, -⟩)
            · exact hv
            · subst hv; exact hu
        · rw [if_neg hu]
          simp [List.mem_append]
      · simp only [ownersOf, lookupGame, if_neg hg']
        constructor
        · exact Or.inl
        · rintro (hv | ⟨-, hgk⟩)
          · exact hv
          · exact absurd hgk.symm hg'
    · simp only [addOwner, if_neg hk]
      by_cases hg' : k = g'
      · subst hg'
        simp only [ownersOf, lookupGame, if_pos rfl, Option.getD_some]
        constructor
        · exact Or.inl
        · rintro (hv | ⟨-, hgg⟩)
          · exact hv
          · exact absurd hgg hk
      · simp only [ownersOf, lookupGame, if_neg hg']
        exact ih g u g' v

theorem mem_ownersOf_mergeUser :
    ∀ (ids : List ℤ) (m : OwnershipMap) (u : String) (g : ℤ) (v : String),
      v ∈ ownersOf (mergeUser m u ids) g ↔
        v ∈ ownersOf m g ∨ (v = u ∧ g ∈ ids) := by
  intro ids
  induction ids with
  | nil =>
    intro m u g v
    simp [mergeUser]
  | cons gid ids ih =>
    intro m u g v
    show v ∈ ownersOf (mergeUser (addOwner m gid u) u ids) g ↔ _
    rw [ih, mem_ownersOf_addOwner]
    simp only [List.mem_cons]
    constructor
    · rintro ((hv | ⟨hv, hg⟩) | ⟨hv, hg⟩)
      · exact Or.inl hv
      · exact Or.inr ⟨hv, Or.inl hg⟩
      · exact Or.inr ⟨hv, Or.inr hg⟩
    · rintro (hv | ⟨hv, hg | hg⟩)
      · exact Or.inl (Or.inl hv)
      · exact Or.inl (Or.inr ⟨hv, hg⟩)
      · exact Or.inr ⟨hv, hg⟩

theorem lookupGame_eq_some_of_mem {m : OwnershipMap} {g : ℤ} {v : String}
    (hv : v ∈ ownersOf m g) :
    ∃ os, lookupGame m g = some os ∧ v ∈ os := by
  unfold ownersOf at hv
  cases h : lookupGame m g with
  | none => rw [h] at hv; simp at hv
  | some os => rw [h] at hv; exact ⟨os, rfl, hv⟩

theorem addOwner_eq_self :
    ∀ (m : OwnershipMap) (g : ℤ) (u : String) (os : List String),
      lookupGame m g = some os → u ∈ os → addOwner m g u = m := by
  intro m
  induction m with
  | nil => intro g u os hl _; cases hl
  | cons e rest ih =>
    intro g u os hl hu
    obtain ⟨k, os'⟩ := e
    by_cases hk : k = g
    · subst hk
      rw [lookupGame, if_pos rfl] at hl
      injection hl with hl
      subst hl
      simp [addOwner, hu]
    · rw [lookupGame, if_neg hk] at hl
      simp only [addOwner, if_neg hk]
      rw [ih g u os hl hu]

theorem mergeUser_eq_self :
    ∀ (ids : List ℤ) (m : OwnershipMap) (u : String),
      (∀ g ∈ ids, u ∈ ownersOf m g) → mergeUser m u ids = m := by
  intro ids
  induction ids with
  | nil => intro m u _; rfl
  | cons gid ids ih =>
    intro m u h
    obtain ⟨os, hl, hu⟩ := lookupGame_eq_some_of_mem (h gid (List.mem_cons_self _ _))
    show mergeUser (addOwner m gid u) u ids = m
    rw [addOwner_eq_self m gid u os hl hu]
    exact ih m u (fun g hg => h g (List.mem_cons_of_mem _ hg))

/-- C6: the aggregation step has set-union semantics: merging the same
`(identity, ids)` pair a second time leaves the OwnershipMap unchanged, and
merging never removes an existing `(id, identity)` membership. -/
theorem aggregator_C6 (m : OwnershipMap) (u : String) (ids : List ℤ) :
    mergeUser (mergeUser m u ids) u ids = mergeUser m u ids
    ∧ ∀ (g : ℤ) (v : String),
        v ∈ ownersOf m g → v ∈ ownersOf (mergeUser m u ids) g := by
  constructor
  · apply mergeUser_eq_self
    intro g hg
    exact (mem_ownersOf_mergeUser ids m u g u).mpr (Or.inr ⟨rfl, hg⟩)
  · intro g v hv
    exact (mem_ownersOf_mergeUser ids m u g v).mpr (Or.inl hv)

/-- Witness for `aggregator_C6`: a map with one game owned by `"bo"`, into
which `"amy"` is merged for games 1 and 2. -/
theorem aggregator_C6_witness :
    mergeUser (mergeUser [(1, ["bo"])] "amy" [1, 2]) "amy" [1, 2] =
      mergeUser [(1, ["bo"])] "amy" [1, 2]
    ∧ "bo" ∈ ownersOf (mergeUser [(1, ["bo"])] "amy" [1, 2]) 1 :=
  ⟨(aggregator_C6 [(1, ["bo"])] "amy" [1, 2]).1,
   (aggregator_C6 [(1, ["bo"])] "amy" [1, 2]).2 1 "bo" (by decide)⟩

/-! ## Pipeline lemmas: `buildMap` -/

theorem mem_keys_addOwner :
    ∀ (m : OwnershipMap) (g : ℤ) (u : String) (g' : ℤ),
      g' ∈ (addOwner m g u).map Prod.fst ↔ g' ∈ m.map Prod.fst ∨ g' = g := by
  intro m
  induction m with
  | nil =>
    intro g u g'
    simp [addOwner]
  | cons e rest ih =>
    intro g u g'
    obtain ⟨k, os⟩ := e
    by_cases hk : k = g
    · subst hk
      simp only [addOwner, if_true, eq_self_iff_true]
      simp only [List.map_cons, List.mem_cons]
      tauto
    · simp only [addOwner]
      rw [if_neg hk]
      simp only [List.map_cons, List.mem_cons, ih]
      tauto

theorem mem_keys_mergeUser :
    ∀ (ids : List ℤ) (m : OwnershipMap) (u : String) (g' : ℤ),
      g' ∈ (mergeUser m u ids).map Prod.fst ↔
        g' ∈ m.map Prod.fst ∨ g' ∈ ids := by
  intro ids
  induction ids with
  | nil => intro m u g'; simp [mergeUser]
  | cons gid ids ih =>
    intro m u g'
    show g' ∈ (mergeUser (addOwner m gid u) u ids).map Prod.fst ↔ _
    rw [ih, mem_keys_addOwner]
    simp only [List.mem_cons]
    tauto

theorem mem_keys_buildMap_aux (fetch : String → List ℤ) :
    ∀ (users : List String) (m : OwnershipMap) (g : ℤ),
      g ∈ (users.foldl (fun acc u => mergeUser acc u (fetch u)) m).map Prod.fst ↔
        g ∈ m.map Prod.fst ∨ ∃ u ∈ users, g ∈ fetch u := by
  intro users
  induction users with
  | nil => intro m g; simp
  | cons u us ih =>
    intro m g
    show g ∈ (us.foldl _ (mergeUser m u (fetch u))).map Prod.fst ↔ _
    rw [ih, mem_keys_mergeUser]
    constructor
    · rintro ((h | h) | ⟨w, hw, hg⟩)
      · exact Or.inl h
      · exact Or.inr ⟨u, List.mem_cons_self _ _, h⟩
      · exact Or.inr ⟨w, List.mem_cons_of_mem _ hw, hg⟩
    · rintro (h | ⟨w, hw, hg⟩)
      · exact Or.inl (Or.inl h)
      · rcases List.mem_cons.mp hw with hw | hw
        · subst hw; exact Or.inl (Or.inr hg)
        · exact Or.inr ⟨w, hw, hg⟩

theorem mem_keys_buildMap (fetch : String → List ℤ) (users : List String) (g : ℤ) :
    g ∈ (buildMap fetch users).map Prod.fst ↔ ∃ u ∈ users, g ∈ fetch u := by
  unfold buildMap
  rw [mem_keys_buildMap_aux]
  simp

theorem mem_ownersOf_buildMap_aux (fetch : String → List ℤ) :
    ∀ (users : List String) (m : OwnershipMap) (g : ℤ) (v : String),
      v ∈ ownersOf (users.foldl (fun acc u => mergeUser acc u (fetch u)) m) g ↔
        v ∈ ownersOf m g ∨ (v ∈ users ∧ g ∈ fetch v) := by
  intro users
  induction users with
  | nil => intro m g v; simp
  | cons u us ih =>
    intro m g v
    show v ∈ ownersOf (us.foldl _ (mergeUser m u (fetch u))) g ↔ _
    rw [ih, mem_ownersOf_mergeUser]
    constructor
    · rintro ((h | ⟨rfl, hg⟩) | ⟨hv, hg⟩)
      · exact Or.inl h
      · exact Or.inr ⟨List.mem_cons_self _ _, hg⟩
      · exact Or.inr ⟨List.mem_cons_of_mem _ hv, hg⟩
    · rintro (h | ⟨hv, hg⟩)
      · exact Or.inl (Or.inl h)
      · rcases List.mem_cons.mp hv with hv | hv
        · subst hv; exact Or.inl (Or.inr ⟨rfl, hg⟩)
        · exact Or.inr ⟨hv, hg⟩

theorem mem_ownersOf_buildMap (fetch : String → List ℤ) (users : List String)
    (g : ℤ) (v : String) :
    v ∈ ownersOf (buildMap fetch users) g ↔ (v ∈ users ∧ g ∈ fetch v) := by
  unfold buildMap
  rw [mem_ownersOf_buildMap_aux]
  simp [ownersOf, lookupGame]

theorem ownersOf_addOwner_eq (m : OwnershipMap) (g : ℤ) (u : String) :
    ∀ g', ownersOf (addOwner m g u) g' =
      if g' = g then
        (if u ∈ ownersOf m g then ownersOf m g else ownersOf m g ++ [u])
      else ownersOf m g' := by
  induction m with
  | nil =>
    intro g'
    by_cases hg : g' = g
    · subst hg
      simp [addOwner, ownersOf, lookupGame]
    · have hgg : ¬ (g = g') := fun h => hg h.symm
      simp [addOwner, ownersOf, lookupGame, hg, hgg]
  | cons e rest ih =>
    intro g'
    obtain ⟨k, os⟩ := e
    by_cases hk : k = g
    · subst hk
      simp only [addOwner, if_pos rfl]
      by_cases hg' : g' = k
      · subst hg'
        simp [ownersOf, lookupGame]
      · have hk' : ¬ (k = g') := fun h => hg' h.symm
        simp [ownersOf, lookupGame, hk', hg']
    · simp only [addOwner, if_neg hk]
      by_cases hg' : g' = k
      · subst hg'
        simp [ownersOf, lookupGame, hk]
      · have hk' : ¬ (k = g') := fun h => hg' h.symm
        simp only [ownersOf, lookupGame, if_neg hk']
        have hrec := ih g'
        simp only [ownersOf] at hrec
        rw [hrec]
        by_cases hgg : g' = g
        · subst hgg
          simp [ownersOf, lookupGame, if_neg hk']
        · simp [hgg]

theorem ownersOf_nodup_addOwner {m : OwnershipMap} (g : ℤ) (u : String)
    (h : ∀ g', (ownersOf m g').Nodup) :
    ∀ g', (ownersOf (addOwner m g u) g').Nodup := by
  intro g'
  rw [ownersOf_addOwner_eq]
  by_cases hg : g' = g
  · rw [if_pos hg]
    by_cases hu : u ∈ ownersOf m g
    · rw [if_pos hu]; exact h g
    · rw [if_neg hu]
      refine List.Nodup.append (h g) (List.nodup_singleton u) ?_
      intro a ha hau
      rw [List.mem_singleton] at hau
      subst hau
      exact hu ha
  · rw [if_neg hg]; exact h g'

theorem ownersOf_nodup_mergeUser :
    ∀ (ids : List ℤ) {m : OwnershipMap} (u : String),
      (∀ g', (ownersOf m g').Nodup) →
      ∀ g', (ownersOf (mergeUser m u ids) g').Nodup := by
  intro ids
  induction ids with
  | nil => intro m u h g'; exact h g'
  | cons gid ids ih =>
    intro m u h g'
    show (ownersOf (mergeUser (addOwner m gid u) u ids) g').Nodup
    exact ih u (ownersOf_nodup_addOwner gid u h) g'

theorem ownersOf_nodup_buildMap (fetch : String → List ℤ) :
    ∀ (users : List String) {m : OwnershipMap},
      (∀ g', (ownersOf m g').Nodup) →
      ∀ g', (ownersOf (users.foldl (fun acc u => mergeUser acc u (fetch u)) m) g').Nodup := by
  intro users
  induction users with
  | nil => intro m h g'; exact h g'
  | cons u us ih =>
    intro m h g'
    exact ih (ownersOf_nodup_mergeUser (fetch u) u h) g'

theorem buildMap_owners_nodup (fetch : String → List ℤ) (users : List String)
    (g : ℤ) : (ownersOf (buildMap fetch users) g).Nodup := by
  apply ownersOf_nodup_buildMap fetch users
  intro g'
  simp [ownersOf, lookupGame]

/-! ## Pipeline lemmas: membership in `mainRecords` -/

theorem recordFor_eq_some (m : OwnershipMap) (idToName : ℤ → Option String)
    (gid : ℤ) (r : GameRecord) :
    recordFor m idToName gid = some r ↔
      ∃ nm, idToName gid = some nm ∧ nm ≠ "" ∧
        r = ⟨gid, nm, List.mergeSort (ownersOf m gid) pyStrLe⟩ := by
  unfold recordFor
  cases h : idToName gid with
  | none => simp
  | some nm =>
    dsimp only
    by_cases hnm : nm = ""
    · rw [if_pos hnm]
      constructor
      · intro hr; cases hr
      · rintro ⟨nm', hnm', hne, -⟩
        injection hnm' with hnm'
        subst hnm'
        exact absurd hnm hne
    · rw [if_neg hnm]
      constructor
      · intro hr
        injection hr with hr
        exact ⟨nm, rfl, hnm, hr.symm⟩
      · rintro ⟨nm', hnm', hne, hr⟩
        injection hnm' with hnm'
        subst hnm'
        rw [hr]

theorem mem_mainRecords (users : List String) (fetch : String → List ℤ)
    (idToName : ℤ → Option String) (r : GameRecord) :
    r ∈ mainRecords users fetch idToName ↔
      ∃ gid, gid ∈ (buildMap fetch users).map Prod.fst ∧
        ∃ nm, idToName gid = some nm ∧ nm ≠ "" ∧
          r = ⟨gid, nm,
            List.mergeSort (ownersOf (buildMap fetch users) gid) pyStrLe⟩ := by
  unfold mainRecords
  rw [(List.mergeSort_perm _ gameLe).mem_iff, List.mem_filterMap]
  constructor
  · rintro ⟨gid, hgid, hrec⟩
    rw [(List.mergeSort_perm _ _).mem_iff] at hgid
    obtain ⟨nm, hnm, hne, hr⟩ := (recordFor_eq_some _ _ _ _).mp hrec
    exact ⟨gid, hgid, nm, hnm, hne, hr⟩
  · rintro ⟨gid, hgid, nm, hnm, hne, hr⟩
    refine ⟨gid, ?_, (recordFor_eq_some _ _ _ _).mpr ⟨nm, hnm, hne, hr⟩⟩
    rw [(List.mergeSort_perm _ _).mem_iff]
    exact hgid

/-! ## Order lemmas for the two sort relations -/

theorem pyStrLe_trans :
    ∀ (a b c : String), pyStrLe a b = true → pyStrLe b c = true →
      pyStrLe a c = true := by
  intro a b c h1 h2
  simp only [pyStrLe, Bool.or_eq_true, beq_iff_eq] at h1 h2 ⊢
  rcases h1 with h1 | h1
  · rcases h2 with h2 | h2
    · exact Or.inl (charListLt_trans h1 h2)
    · subst h2; exact Or.inl h1
  · subst h1; exact h2

theorem pyStrLe_total :
    ∀ (a b : String), (pyStrLe a b || pyStrLe b a) = true := by
  intro a b
  simp only [pyStrLe, Bool.or_eq_true, beq_iff_eq]
  by_cases hab : a = b
  · subst hab; tauto
  · cases hlt : charListLt a.data b.data with
    | true => tauto
    | false =>
      cases hlt2 : charListLt b.data a.data with
      | true => tauto
      | false => exact absurd (String.ext (charListLt_conn hlt hlt2)) hab

theorem pyStrLe_and_ne_lt {u v : String} (hle : pyStrLe u v = true)
    (hne : u ≠ v) : charListLt u.data v.data = true := by
  simp only [pyStrLe, Bool.or_eq_true, beq_iff_eq] at hle
  rcases hle with h | h
  · exact h
  · exact absurd h hne

theorem gameLe_trans :
    ∀ (a b c : GameRecord), gameLe a b = true → gameLe b c = true →
      gameLe a c = true := by
  intro a b c h1 h2
  unfold gameLe at h1 h2 ⊢
  by_cases hab : casefold a.name = casefold b.name
  · rw [if_pos hab] at h1
    by_cases hbc : casefold b.name = casefold c.name
    · rw [if_pos hbc] at h2
      rw [if_pos (hab.trans hbc)]
      simp only [decide_eq_true_eq] at h1 h2 ⊢
      omega
    · rw [if_neg hbc] at h2
      have hac : ¬ (casefold a.name = casefold c.name) :=
        fun h => hbc (hab.symm.trans h)
      rw [if_neg hac, hab]
      exact h2
  · rw [if_neg hab] at h1
    by_cases hbc : casefold b.name = casefold c.name
    · rw [if_pos hbc] at h2
      have hac : ¬ (casefold a.name = casefold c.name) :=
        fun h => hab (h.trans hbc.symm)
      rw [if_neg hac, ← hbc]
      exact h1
    · rw [if_neg hbc] at h2
      have hac : ¬ (casefold a.name = casefold c.name) := by
        intro h
        rw [← h] at h2
        have hasym := charListLt_asymm h1
        rw [hasym] at h2
        exact Bool.false_ne_true h2
      rw [if_neg hac]
      exact charListLt_trans h1 h2

theorem gameLe_total :
    ∀ (a b : GameRecord), (gameLe a b || gameLe b a) = true := by
  intro a b
  unfold gameLe
  by_cases hab : casefold a.name = casefold b.name
  · rw [if_pos hab, if_pos hab.symm]
    simp only [Bool.or_eq_true, decide_eq_true_eq]
    omega
  · rw [if_neg hab, if_neg (fun h => hab h.symm)]
    cases hlt : charListLt (casefold a.name).data (casefold b.name).data with
    | true => simp
    | false =>
      cases hlt2 : charListLt (casefold b.name).data (casefold a.name).data with
      | true => simp
      | false => exact absurd (String.ext (charListLt_conn hlt hlt2)) hab

theorem gameLe_iff (a b : GameRecord) :
    gameLe a b = true ↔
      (charListLt (casefold a.name).data (casefold b.name).data = true
        ∨ (casefold a.name = casefold b.name ∧ a.id ≤ b.id)) := by
  unfold gameLe
  by_cases hab : casefold a.name = casefold b.name
  · rw [if_pos hab, hab]
    simp [charListLt_irrefl]
  · rw [if_neg hab]
    simp [hab]

/-! ## The claims about `mainRecords` -/

/-- C1: filtering.  An id the name mapping does not resolve (no entry, or
an empty name) never appears in the output, and conversely every output
record's id resolved to a nonempty name. -/
theorem filtering_C1 (users : List String) (fetch : String → List ℤ)
    (idToName : ℤ → Option String) (gid : ℤ) :
    ((idToName gid = none ∨ idToName gid = some "") →
      ¬ ∃ r ∈ mainRecords users fetch idToName, r.id = gid)
    ∧ (∀ r ∈ mainRecords users fetch idToName,
        ∃ nm, idToName r.id = some nm ∧ nm ≠ "") := by
  constructor
  · rintro hnone ⟨r, hr, hid⟩
    obtain ⟨g, -, nm, hnm, hne, hrec⟩ :=
      (mem_mainRecords users fetch idToName r).mp hr
    subst hrec
    have hg : g = gid := hid
    subst hg
    rcases hnone with h | h
    · rw [hnm] at h; cases h
    · rw [hnm] at h
      injection h with h
      exact hne h
  · intro r hr
    obtain ⟨g, -, nm, hnm, hne, hrec⟩ :=
      (mem_mainRecords users fetch idToName r).mp hr
    subst hrec
    exact ⟨nm, hnm, hne⟩

/-- Witness for `filtering_C1`: one user owning game 1, name mapping
resolving only id 1; id 2 is unresolved and absent, and the one output
record (id 1, name `"A"`) resolved to a nonempty name. -/
theorem filtering_C1_witness :
    (¬ ∃ r ∈ mainRecords ["amy"] (fun _ => [1])
        (fun g => if g = 1 then some "A" else none), r.id = 2)
    ∧ ∃ nm, (fun g => if g = (1 : ℤ) then some "A" else none)
        (⟨1, "A", ["amy"]⟩ : GameRecord).id = some nm ∧ nm ≠ "" :=
  ⟨(filtering_C1 ["amy"] (fun _ => [1])
      (fun g => if g = 1 then some "A" else none) 2).1 (Or.inl (by decide)),
   (filtering_C1 ["amy"] (fun _ => [1])
      (fun g => if g = 1 then some "A" else none) 2).2
     ⟨1, "A", ["amy"]⟩ (by
        apply (mem_mainRecords _ _ _ _).mpr
        refine ⟨1, by decide, "A", by decide, by decide, ?_⟩
        have h1 : ownersOf (buildMap (fun _ => [1]) ["amy"]) 1 = ["amy"] := by decide
        rw [h1, List.mergeSort_singleton])⟩

/-- C2: ordering invariants.  The output is sorted ascending by the pair
(case-folded name, id) with id as tie-break, and every record's owners
list is duplicate-free and sorted strictly ascending by identity string. -/
theorem ordering_C2 (users : List String) (fetch : String → List ℤ)
    (idToName : ℤ → Option String) :
    List.Pairwise (fun a b : GameRecord =>
        charListLt (casefold a.name).data (casefold b.name).data = true
        ∨ (casefold a.name = casefold b.name ∧ a.id ≤ b.id))
      (mainRecords users fetch idToName)
    ∧ ∀ r ∈ mainRecords users fetch idToName,
        r.owners.Nodup
        ∧ List.Pairwise (fun u v : String => charListLt u.data v.data = true)
            r.owners := by
  constructor
  · unfold mainRecords
    exact (List.sorted_mergeSort gameLe_trans gameLe_total _).imp
      (fun h => (gameLe_iff _ _).mp h)
  · intro r hr
    obtain ⟨gid, -, nm, -, -, hrec⟩ :=
      (mem_mainRecords users fetch idToName r).mp hr
    subst hrec
    have hnodup : (List.mergeSort (ownersOf (buildMap fetch users) gid)
        pyStrLe).Nodup :=
      (List.mergeSort_perm _ _).nodup_iff.mpr (buildMap_owners_nodup fetch users gid)
    refine ⟨hnodup, ?_⟩
    have hle := List.sorted_mergeSort pyStrLe_trans pyStrLe_total
      (ownersOf (buildMap fetch users) gid)
    have hne : List.Pairwise (fun a b : String => a ≠ b)
        (List.mergeSort (ownersOf (buildMap fetch users) gid) pyStrLe) := hnodup
    exact (hle.and hne).imp (fun h => pyStrLe_and_ne_lt h.1 h.2)

/-- Witness for `ordering_C2`: one user owning one game. -/
theorem ordering_C2_witness :
    List.Pairwise (fun a b : GameRecord =>
        charListLt (casefold a.name).data (casefold b.name).data = true
        ∨ (casefold a.name = casefold b.name ∧ a.id ≤ b.id))
      (mainRecords ["a"] (fun _ => [1]) (fun _ => some "n"))
    ∧ ((⟨1, "n", ["a"]⟩ : GameRecord).owners.Nodup
        ∧ List.Pairwise (fun u v : String => charListLt u.data v.data = true)
            (⟨1, "n", ["a"]⟩ : GameRecord).owners) :=
  ⟨(ordering_C2 ["a"] (fun _ => [1]) (fun _ => some "n")).1,
   (ordering_C2 ["a"] (fun _ => [1]) (fun _ => some "n")).2
     ⟨1, "n", ["a"]⟩ (by
        apply (mem_mainRecords _ _ _ _).mpr
        refine ⟨1, by decide, "n", by decide, by decide, ?_⟩
        have h1 : ownersOf (buildMap (fun _ => [1]) ["a"]) 1 = ["a"] := by decide
        rw [h1, List.mergeSort_singleton])⟩

/-- C10: ownership of output records.  Every output record has a nonempty
owners list, and an identity belongs to the owners of the record with id
`g` exactly when it is one of the input identities and `g` appeared in the
id list fetched for it. -/
theorem output_owners_C10 (users : List String) (fetch : String → List ℤ)
    (idToName : ℤ → Option String) :
    ∀ r ∈ mainRecords users fetch idToName,
      r.owners ≠ []
      ∧ ∀ u, (u ∈ r.owners ↔ (u ∈ users ∧ r.id ∈ fetch u)) := by
  intro r hr
  obtain ⟨gid, hkeys, nm, -, -, hrec⟩ :=
    (mem_mainRecords users fetch idToName r).mp hr
  subst hrec
  constructor
  · obtain ⟨u, hu, hg⟩ := (mem_keys_buildMap fetch users gid).mp hkeys
    have humem : u ∈ ownersOf (buildMap fetch users) gid :=
      (mem_ownersOf_buildMap fetch users gid u).mpr ⟨hu, hg⟩
    intro hnil
    have hperm := List.mergeSort_perm (ownersOf (buildMap fetch users) gid) pyStrLe
    have hnil' : List.mergeSort (ownersOf (buildMap fetch users) gid) pyStrLe
        = [] := hnil
    rw [hnil'] at hperm
    have hraw : ownersOf (buildMap fetch users) gid = [] :=
      (hperm.symm).eq_nil
    rw [hraw] at humem
    simp at humem
  · intro u
    show u ∈ List.mergeSort (ownersOf (buildMap fetch users) gid) pyStrLe ↔ _
    rw [(List.mergeSort_perm _ _).mem_iff]
    exact mem_ownersOf_buildMap fetch users gid u

/-- Witness for `output_owners_C10`: one user `"a"` owning game 1. -/
theorem output_owners_C10_witness :
    ((⟨1, "n", ["a"]⟩ : GameRecord).owners ≠ [])
    ∧ ("a" ∈ (⟨1, "n", ["a"]⟩ : GameRecord).owners ↔
        ("a" ∈ ["a"] ∧ (⟨1, "n", ["a"]⟩ : GameRecord).id ∈ (fun _ => [1]) "a")) :=
  ⟨(output_owners_C10 ["a"] (fun _ => [1]) (fun _ => some "n")
      ⟨1, "n", ["a"]⟩ (by
        apply (mem_mainRecords _ _ _ _).mpr
        refine ⟨1, by decide, "n", by decide, by decide, ?_⟩
        have h1 : ownersOf (buildMap (fun _ => [1]) ["a"]) 1 = ["a"] := by decide
        rw [h1, List.mergeSort_singleton])).1,
   (output_owners_C10 ["a"] (fun _ => [1]) (fun _ => some "n")
      ⟨1, "n", ["a"]⟩ (by
        apply (mem_mainRecords _ _ _ _).mpr
        refine ⟨1, by decide, "n", by decide, by decide, ?_⟩
        have h1 : ownersOf (buildMap (fun _ => [1]) ["a"]) 1 = ["a"] := by decide
        rw [h1, List.mergeSort_singleton])).2 "a"⟩
